import Mathlib

/-!
Verification of the unidiff-to-commit pipeline of the jules-mobile-wrapper
repository (`mobile_jules/server/github_client.py`).

The Python source is shallowly embedded below:
  * `parse_patch` embeds `GitHubClient._parse_patch`,
  * `apply_patch_to_content` embeds `GitHubClient._apply_patch_to_content`,
  * `create_pr_from_patch` embeds the control flow of
    `GitHubClient.create_pr_from_patch`, with the remote HTTP interactions
    represented by an environment of oracles and an explicit trace of the
    remote calls it issues.

Strings are modelled as Lean `String` (a list of characters), matching
Python `str` operations used by the source: `split("\n")`, `startswith`,
slicing, and `"\n".join`.
-/

/-- Python `pfx` is a prefix of `s`, character by character. -/
def charsStartWith : List Char → List Char → Bool
  | [], _ => true
  | _ :: _, [] => false
  | a :: as, b :: bs => if a = b then charsStartWith as bs else false

/-- Python `s.startswith(pfx)`. -/
def strStartsWith (s pfx : String) : Bool := charsStartWith pfx.data s.data

/-- Python `s[n:]` (slicing from character index `n`). -/
def strDrop (s : String) (n : Nat) : String := String.mk (s.data.drop n)

/-- Python `s.split("\n")` at the character level.  Always returns a
nonempty list; splitting the empty string gives `[[]]`. -/
def splitLinesList : List Char → List (List Char)
  | [] => [[]]
  | c :: cs =>
    let rest := splitLinesList cs
    if c = '\n' then [] :: rest
    else
      match rest with
      | [] => [[c]]
      | r :: rs => (c :: r) :: rs

/-- Python `s.split("\n")`. -/
def splitLines (s : String) : List String := (splitLinesList s.data).map String.mk

/-- Python `"\n".join(lines)` at the character level. -/
def joinCharLines : List (List Char) → List Char
  | [] => []
  | [l] => l
  | l :: r :: rs => l ++ '\n' :: joinCharLines (r :: rs)

/-- Python `"\n".join(lines)`. -/
def joinNL : List String → String
  | [] => ""
  | [s] => s
  | s :: r :: rs => s ++ "\n" ++ joinNL (r :: rs)

/-- The tag of a content line inside a hunk (`"add"`, `"remove"`,
`"context"` in the Python dictionaries). -/
inductive Tag
  | add
  | remove
  | context
deriving DecidableEq, Repr

/-- One hunk of a unidiff patch, as built by `_parse_patch` from a header
`@@ -old_start,old_count +new_start,new_count @@` (counts default to 1). -/
structure Hunk where
  old_start : Nat
  old_count : Nat
  new_start : Nat
  new_count : Nat
  lines : List (Tag × String)
deriving DecidableEq, Repr

/-- The per-file record built by `_parse_patch`. -/
structure FileChange where
  is_new : Bool
  is_deleted : Bool
  added_lines : List String
  removed_lines : List String
  hunks : List Hunk
deriving DecidableEq, Repr

/-- The fresh record created when a `+++ b/<path>` header is seen. -/
def freshFileChange : FileChange :=
  { is_new := false, is_deleted := false, added_lines := [],
    removed_lines := [], hunks := [] }

/-- Python dict lookup `m[k]`, as an association list preserving insertion
order (Python 3.7+ dict semantics). -/
def getEntry (m : List (String × FileChange)) (k : String) : Option FileChange :=
  match m with
  | [] => none
  | (k1, v) :: rest => if k1 = k then some v else getEntry rest k

/-- Python dict assignment `m[k] = v`: replaces in place when the key is
present (keeping its position in insertion order), appends otherwise. -/
def setEntry (m : List (String × FileChange)) (k : String) (v : FileChange) :
    List (String × FileChange) :=
  match m with
  | [] => [(k, v)]
  | (k1, v1) :: rest =>
    if k1 = k then (k, v) :: rest else (k1, v1) :: setEntry rest k v

/-- In-place mutation of an existing entry (`m[k]["field"] = ...`); the
absent-key case is a no-op here (the checked model errors there instead). -/
def modifyEntry (m : List (String × FileChange)) (k : String)
    (f : FileChange → FileChange) : List (String × FileChange) :=
  match getEntry m k with
  | some e => setEntry m k (f e)
  | none => m

/-- Python list mutation `hunks[-1] = f(hunks[-1])`; no-op on `[]` (the
source only reaches this with a nonempty hunk list). -/
def modifyLastHunk (hs : List Hunk) (f : Hunk → Hunk) : List Hunk :=
  match hs with
  | [] => []
  | [h] => [f h]
  | h :: h2 :: rest => h :: modifyLastHunk (h2 :: rest) f

/-- Parser state: the `file_changes` dict and the `current_file` cursor. -/
structure PState where
  fc : List (String × FileChange)
  cf : Option String
deriving DecidableEq, Repr

/-- Python truthiness of `current_file` (`None` and `""` are falsy). -/
def cfTruthy : Option String → Bool
  | some s => if s = "" then false else true
  | none => false

/-- Read a nonempty run of digits (the regex `\d+`). -/
def readDigits (cs : List Char) : Option (Nat × List Char) :=
  let ds := cs.takeWhile Char.isDigit
  if ds = [] then none
  else some (ds.foldl (fun n c => n * 10 + (c.toNat - 48)) 0, cs.dropWhile Char.isDigit)

/-- The optional regex group `(?:,(\d+))?`: consume `,<digits>` if present,
otherwise consume nothing. -/
def readOptCount (cs : List Char) : Option Nat × List Char :=
  match cs with
  | ',' :: rest =>
    (match readDigits rest with
     | some (n, rest1) => (some n, rest1)
     | none => (none, ',' :: rest))
  | _ => (none, cs)

/-- `re.match(r"@@ -(\d+)(?:,(\d+))? \+(\d+)(?:,(\d+))? @@", line)` together
with the `int(... or 1)` defaulting of the two counts.  `re.match` anchors
only at the start, so trailing text after the closing `@@` is accepted. -/
def parseHunkHeader (line : String) : Option Hunk :=
  match line.data with
  | '@' :: '@' :: ' ' :: '-' :: rest =>
    match readDigits rest with
    | none => none
    | some (os, r1) =>
      let (oc, r2) := readOptCount r1
      match r2 with
      | ' ' :: '+' :: r3 =>
        match readDigits r3 with
        | none => none
        | some (ns, r4) =>
          let (nc, r5) := readOptCount r4
          match r5 with
          | ' ' :: '@' :: '@' :: _ =>
            some { old_start := os, old_count := oc.getD 1,
                   new_start := ns, new_count := nc.getD 1, lines := [] }
          | _ => none
      | _ => none
  | _ => none

/-- The content-line handling inside an open hunk (the final `elif` of the
parser loop): `+` lines (not `+++`) are adds, `-` lines (not `---`) are
removes, lines starting with a space are context; anything else is dropped.
`e` is the current file entry, known to have a nonempty hunk list. -/
def pushLastHunkLine (e : FileChange) (tg : Tag) (t : String) : FileChange :=
  { e with hunks := modifyLastHunk e.hunks (fun h => { h with lines := h.lines ++ [(tg, t)] }) }

/-- The content-line handling inside an open hunk (part two): dispatch on
the first character of the line. -/
def contentLine (st : PState) (f : String) (e : FileChange) (line : String) : PState :=
  if strStartsWith line "+" && !strStartsWith line "+++" then
    let t := strDrop line 1
    let e1 := pushLastHunkLine e Tag.add t
    { fc := setEntry st.fc f { e1 with added_lines := e1.added_lines ++ [t] }, cf := st.cf }
  else if strStartsWith line "-" && !strStartsWith line "---" then
    let t := strDrop line 1
    let e1 := pushLastHunkLine e Tag.remove t
    { fc := setEntry st.fc f { e1 with removed_lines := e1.removed_lines ++ [t] }, cf := st.cf }
  else if strStartsWith line " " then
    let t := strDrop line 1
    { fc := setEntry st.fc f (pushLastHunkLine e Tag.context t), cf := st.cf }
  else st

/-- The common shape of `file_changes[current_file]["..."] = ...` guarded by
`if current_file:` — mutate the entry of the current file (total model). -/
def markCurrent (st : PState) (g : FileChange → FileChange) : PState :=
  if cfTruthy st.cf then
    match st.cf with
    | some f => { fc := modifyEntry st.fc f g, cf := st.cf }
    | none => st
  else st

/-- The final `elif current_file and file_changes[current_file]["hunks"]:`
branch (total model). -/
def contentStep (st : PState) (line : String) : PState :=
  if cfTruthy st.cf then
    match st.cf with
    | some f =>
      match getEntry st.fc f with
      | some e => if e.hunks = [] then st else contentLine st f e line
      | none => st
    | none => st
  else st

/-- One iteration of the `while i < len(lines)` loop of `_parse_patch`,
total model: the `KeyError` points of the Python code (dict access through
`current_file`) behave as no-ops here; `parseStepChecked` below models them
as failures, and the two models are proved to agree. -/
def parseStep (st : PState) (line : String) : PState :=
  if strStartsWith line "+++ b/" then
    let path := strDrop line 6
    { fc := setEntry st.fc path freshFileChange, cf := some path }
  else if strStartsWith line "--- a/" then st
  else if strStartsWith line "--- /dev/null" then
    markCurrent st (fun e => { e with is_new := true })
  else if strStartsWith line "+++ /dev/null" then
    markCurrent st (fun e => { e with is_deleted := true })
  else if strStartsWith line "@@" then
    match parseHunkHeader line with
    | some h => markCurrent st (fun e => { e with hunks := e.hunks ++ [h] })
    | none => st
  else contentStep st line

/-- Checked variant of `modifyEntry`: `none` is a Python `KeyError`. -/
def modifyEntryChecked (m : List (String × FileChange)) (k : String)
    (f : FileChange → FileChange) : Option (List (String × FileChange)) :=
  match getEntry m k with
  | some e => some (setEntry m k (f e))
  | none => none

/-- Checked variant of `markCurrent`. -/
def markCurrentChecked (st : PState) (g : FileChange → FileChange) : Option PState :=
  if cfTruthy st.cf then
    match st.cf with
    | some f =>
      match modifyEntryChecked st.fc f g with
      | some m => some { fc := m, cf := st.cf }
      | none => none
    | none => some st
  else some st

/-- Checked variant of `contentStep`. -/
def contentStepChecked (st : PState) (line : String) : Option PState :=
  if cfTruthy st.cf then
    match st.cf with
    | some f =>
      match getEntry st.fc f with
      | some e => some (if e.hunks = [] then st else contentLine st f e line)
      | none => none
    | none => some st
  else some st

/-- One parser-loop iteration in the checked model: every dictionary access
the Python code performs through `current_file` is modelled as a lookup
that fails (returns `none`, i.e. would raise `KeyError`) when the key is
absent.  Totality of the parser (claim C5) is the statement that this
checked run never fails. -/
def parseStepChecked (st : PState) (line : String) : Option PState :=
  if strStartsWith line "+++ b/" then
    let path := strDrop line 6
    some { fc := setEntry st.fc path freshFileChange, cf := some path }
  else if strStartsWith line "--- a/" then some st
  else if strStartsWith line "--- /dev/null" then
    markCurrentChecked st (fun e => { e with is_new := true })
  else if strStartsWith line "+++ /dev/null" then
    markCurrentChecked st (fun e => { e with is_deleted := true })
  else if strStartsWith line "@@" then
    match parseHunkHeader line with
    | some h => markCurrentChecked st (fun e => { e with hunks := e.hunks ++ [h] })
    | none => some st
  else contentStepChecked st line

/-- The parser loop over all lines (total model). -/
def runLines (st : PState) : List String → PState
  | [] => st
  | l :: ls => runLines (parseStep st l) ls

/-- The parser loop over all lines (checked model). -/
def runLinesChecked (st : PState) : List String → Option PState
  | [] => some st
  | l :: ls =>
    match parseStepChecked st l with
    | some st1 => runLinesChecked st1 ls
    | none => none

/-- `GitHubClient._parse_patch`, final parser state. -/
def parsePatchState (patch : String) : PState :=
  runLines { fc := [], cf := none } (splitLines patch)

/-- `GitHubClient._parse_patch`: the returned `file_changes` dict. -/
def parse_patch (patch : String) : List (String × FileChange) :=
  (parsePatchState patch).fc

/-- `GitHubClient._parse_patch` in the checked model (`none` = some dict or
list access was out of bounds / raised). -/
def parsePatchChecked (patch : String) : Option PState :=
  runLinesChecked { fc := [], cf := none } (splitLines patch)

/-- The `while original_idx < target_line and original_idx < len(original_lines)`
copy loop of `_apply_patch_to_content`, fuelled structurally (the fuel
`orig.length - idx` bounds the number of iterations; the loop can only run
while `idx < orig.length`). -/
def copyBeforeAux : Nat → List String → Nat → Int → List String → List String × Nat
  | 0, _, idx, _, acc => (acc, idx)
  | fuel + 1, orig, idx, target, acc =>
    if (idx : Int) < target ∧ idx < orig.length then
      copyBeforeAux fuel orig (idx + 1) target (acc ++ (orig.drop idx).take 1)
    else (acc, idx)

def copyBefore (orig : List String) (idx : Nat) (target : Int) (acc : List String) :
    List String × Nat :=
  copyBeforeAux (orig.length - idx) orig idx target acc

/-- The `for action, line_content in hunk["lines"]` loop: a context line is
appended and consumes one original line, an add line is appended without
consuming, a remove line consumes without appending. -/
def applyHunkLines : List (Tag × String) → List String → Nat → List String × Nat
  | [], acc, idx => (acc, idx)
  | (tg, text) :: rest, acc, idx =>
    match tg with
    | Tag.context => applyHunkLines rest (acc ++ [text]) (idx + 1)
    | Tag.add => applyHunkLines rest (acc ++ [text]) idx
    | Tag.remove => applyHunkLines rest acc (idx + 1)

/-- One hunk of the `for hunk in changes["hunks"]` loop. -/
def applyOneHunk (orig : List String) (p : List String × Nat) (h : Hunk) :
    List String × Nat :=
  let q := copyBefore orig p.2 ((h.old_start : Int) - 1) p.1
  applyHunkLines h.lines q.1 q.2

/-- `GitHubClient._apply_patch_to_content`. -/
def apply_patch_to_content (original : String) (changes : FileChange) : String :=
  if changes.hunks = [] then joinNL changes.added_lines
  else
    let original_lines := splitLines original
    let r := changes.hunks.foldl (applyOneHunk original_lines) ([], 0)
    joinNL (r.1 ++ original_lines.drop r.2)

/-- Outcome of the base-content fetch
(`GET /repos/{owner}/{repo}/contents/{path}`) for one modified file: a
response with an HTTP status and (decoded) body, or a raised exception
(network failure, base64/UTF-8 decode error, ...). -/
inductive FetchResult
  | ok (status : Nat) (body : String)
  | exn
deriving DecidableEq, Repr

/-- One entry of the `tree_items` list sent to the create-tree call.
`sha := none` is the JSON `"sha": null` tombstone for a deletion. -/
structure TreeItem where
  path : String
  mode : String
  sha : Option String
deriving DecidableEq, Repr

/-- The remote calls `create_pr_from_patch` can issue, in issue order. -/
inductive RemoteCall
  | getRef (branch : String)
  | getCommit (sha : String)
  | getContents (path : String) (refSha : String)
  | createBlob (content : String)
  | createTree (baseTree : String) (items : List TreeItem)
  | createCommit (message : String) (tree : String) (parent : String)
  | createRef (ref : String) (sha : String)
  | createPull (title : String) (head : String) (base : String) (body : String)
deriving DecidableEq, Repr

/-- `datetime.now()` truncated to seconds, as consumed by
`strftime("%Y%m%d-%H%M%S")`. -/
structure Timestamp where
  year : Nat
  month : Nat
  day : Nat
  hour : Nat
  minute : Nat
  second : Nat
deriving DecidableEq, Repr

def pad2 (n : Nat) : String := if n < 10 then "0" ++ toString n else toString n

def pad4 (n : Nat) : String :=
  if n < 10 then "000" ++ toString n
  else if n < 100 then "00" ++ toString n
  else if n < 1000 then "0" ++ toString n
  else toString n

/-- `datetime.now().strftime("%Y%m%d-%H%M%S")`. -/
def formatTimestamp (t : Timestamp) : String :=
  pad4 t.year ++ pad2 t.month ++ pad2 t.day ++ "-" ++
    pad2 t.hour ++ pad2 t.minute ++ pad2 t.second

/-- `branch_name = f"jules-patch-{timestamp}"`. -/
def branchNameOf (t : Timestamp) : String := "jules-patch-" ++ formatTimestamp t

/-- Environment of a `create_pr_from_patch` run: the wall-clock timestamp
sampled at entry and the responses of the remote endpoints (all
object-creation steps succeeding; per-file fetch outcomes arbitrary). -/
structure BuildEnv where
  timestamp : Timestamp
  baseRefSha : String
  baseTreeSha : String
  fetch : String → FetchResult
  blobSha : String → String
  treeSha : String
  commitSha : String
  prNumber : Nat

/-- The per-file body of the `for file_path, changes in file_changes.items()`
loop of `create_pr_from_patch`: returns the tree entry appended for this
file and the remote calls issued for it.  A deleted file contributes a
tombstone entry and no call; a fetch failure (non-200 status or exception)
for a modified file degrades to the new-file treatment. -/
def processFileChange (env : BuildEnv) (base_sha : String) (file_path : String)
    (changes : FileChange) : TreeItem × List RemoteCall :=
  if changes.is_new then
    let new_content := joinNL changes.added_lines
    ({ path := file_path, mode := "100644", sha := some (env.blobSha new_content) },
     [RemoteCall.createBlob new_content])
  else if changes.is_deleted then
    ({ path := file_path, mode := "100644", sha := none }, [])
  else
    let new_content :=
      match env.fetch file_path with
      | FetchResult.ok status body =>
        if status = 200 then apply_patch_to_content body changes
        else joinNL changes.added_lines
      | FetchResult.exn => joinNL changes.added_lines
    ({ path := file_path, mode := "100644", sha := some (env.blobSha new_content) },
     [RemoteCall.getContents file_path base_sha, RemoteCall.createBlob new_content])

/-- Find the first newline of an already-stripped message
(`split("\n", 1)`). -/
def splitFirstNL : List Char → List Char × Option (List Char)
  | [] => ([], none)
  | c :: cs =>
    if c = '\n' then ([], some cs)
    else
      let r := splitFirstNL cs
      (c :: r.1, r.2)

def trimChars (cs : List Char) : List Char :=
  ((cs.dropWhile Char.isWhitespace).reverse.dropWhile Char.isWhitespace).reverse

/-- Python `s.strip()`. -/
def strTrim (s : String) : String := String.mk (trimChars s.data)

/-- `lines = commit_message.strip().split("\n", 1)`; title is the first
line, body the stripped remainder (empty when absent). -/
def splitMessage (m : String) : String × String :=
  match splitFirstNL (strTrim m).data with
  | (ttl, none) => (String.mk ttl, "")
  | (ttl, some rest) => (String.mk ttl, strTrim (String.mk rest))

/-- Result dict of `create_pr_from_patch` (the fields the claims touch). -/
structure PRResult where
  branch : String
  title : String
  isPR : Bool
  prNumber : Option Nat
deriving DecidableEq, Repr

/-- `GitHubClient.create_pr_from_patch`, as the pair of its outcome and the
trace of remote calls it issues, assuming every object-creation call
succeeds (their failures abort the pipeline and are outside every claim
below).  The empty-change-set check runs before the HTTP client is even
opened: in that case the error is raised with an empty trace. -/
def create_pr_from_patch (env : BuildEnv) (patch commit_message base_branch : String)
    (base_commit_id : Option String) (branch_only : Bool) :
    Except String PRResult × List RemoteCall :=
  let branch_name := branchNameOf env.timestamp
  let file_changes := parse_patch patch
  if file_changes = [] then (Except.error "No file changes found in patch", [])
  else
    let step1Calls :=
      match base_commit_id with
      | some sha => [RemoteCall.getCommit sha]
      | none => [RemoteCall.getRef base_branch, RemoteCall.getCommit env.baseRefSha]
    let base_sha := base_commit_id.getD env.baseRefSha
    let fileResults := file_changes.map (fun pc => processFileChange env base_sha pc.1 pc.2)
    let tree_items := fileResults.map Prod.fst
    let fileCalls := (fileResults.map Prod.snd).flatten
    let tb := splitMessage commit_message
    let calls := step1Calls ++ fileCalls ++
      [RemoteCall.createTree env.baseTreeSha tree_items,
       RemoteCall.createCommit commit_message env.treeSha base_sha,
       RemoteCall.createRef ("refs/heads/" ++ branch_name) env.commitSha]
    if branch_only then
      (Except.ok { branch := branch_name, title := tb.1, isPR := false, prNumber := none },
       calls)
    else
      (Except.ok { branch := branch_name, title := tb.1, isPR := true,
                   prNumber := some env.prNumber },
       calls ++ [RemoteCall.createPull tb.1 branch_name base_branch
         (if tb.2 = "" then "Created by Jules via Mobile App" else tb.2)])


/-! ### Auxiliary definitions used by the claims -/

/-- Whenever a current file is set, its entry is present in the dict, so
the Python accesses `file_changes[current_file]` cannot raise. -/
def ParserInv (st : PState) : Prop :=
  ∀ f, st.cf = some f → (getEntry st.fc f).isSome = true

/-- The Scenario A patch text (`--- /dev/null` precedes the `+++ b/` header,
as in standard unidiff ordering). -/
def scenarioAPatch : String :=
  "--- /dev/null\n+++ b/new.txt\n@@ -0,0 +1,2 @@\n+hello\n+world"

/-- What `_parse_patch` actually produces for `scenarioAPatch`:
`is_new = false`, because the `--- /dev/null` line is read while no
current file is open yet. -/
def scenarioAChange : FileChange :=
  ⟨false, false, ["hello", "world"], [],
    [⟨0, 0, 1, 2, [(Tag.add, "hello"), (Tag.add, "world")]⟩]⟩

/-- The patch of the C9 counterexample: a `+++ b/` header followed by both
`/dev/null` markers sets both flags on the same file. -/
def dualFlagPatch : String := "+++ b/f.txt\n--- /dev/null\n+++ /dev/null"

/-- `l` is a `+++ b/<p>` header opening exactly the path `p`. -/
abbrev isHeaderFor (p l : String) : Prop :=
  strStartsWith l "+++ b/" = true ∧ strDrop l 6 = p

/-- The paths of all `+++ b/` headers, in order of appearance. -/
def headerPaths (lines : List String) : List String :=
  lines.filterMap (fun l => if strStartsWith l "+++ b/" then some (strDrop l 6) else none)

/-- Fold every header path into a key list, appending each path the first
time it appears and keeping later occurrences in place (Python dict
insertion-order semantics). -/
def insertAll (ks : List String) : List String → List String
  | [] => ks
  | q :: qs => insertAll (if q ∈ ks then ks else ks ++ [q]) qs

/-- Is a remote call the ref-creation (`POST /git/refs`) step? -/
def isCreateRef : RemoteCall → Bool
  | RemoteCall.createRef _ _ => true
  | _ => false

/-- A concrete environment in which every base-content fetch raises. -/
def sampleEnv : BuildEnv :=
  { timestamp := ⟨2025, 10, 12, 8, 30, 0⟩, baseRefSha := "basesha",
    baseTreeSha := "basetree", fetch := fun _ => FetchResult.exn,
    blobSha := fun _ => "blobsha", treeSha := "treesha",
    commitSha := "commitsha", prNumber := 7 }

/-- The standard unidiff deletion of `gone.txt`: `--- a/gone.txt` followed
by `+++ /dev/null` and a removal hunk. -/
def deletionPatch : String := "--- a/gone.txt\n+++ /dev/null\n@@ -1,2 +0,0 @@\n-l1\n-l2"

/-! ### Basic lemmas on the string helpers -/

theorem mk_append (a b : List Char) : String.mk a ++ String.mk b = String.mk (a ++ b) := rfl

theorem charsStartWith_append_self (a b : List Char) : charsStartWith a (a ++ b) = true := by
  induction a with
  | nil => rfl
  | cons c cs ih => simp [charsStartWith, ih]

theorem splitLinesList_ne_nil (cs : List Char) : splitLinesList cs ≠ [] := by
  induction cs with
  | nil => simp [splitLinesList]
  | cons c cs ih =>
    simp only [splitLinesList]
    by_cases h : c = '\n'
    · simp [h]
    · simp only [h, if_false]
      cases hs : splitLinesList cs with
      | nil => simp
      | cons r rs => simp

theorem splitLines_ne_nil (s : String) : splitLines s ≠ [] := by
  simp only [splitLines]
  intro h
  exact splitLinesList_ne_nil s.data (List.map_eq_nil_iff.mp h)

theorem joinCharLines_splitLinesList (cs : List Char) :
    joinCharLines (splitLinesList cs) = cs := by
  induction cs with
  | nil => rfl
  | cons c cs ih =>
    simp only [splitLinesList]
    by_cases h : c = '\n'
    · subst h
      simp only [if_pos rfl]
      cases hs : splitLinesList cs with
      | nil => exact absurd hs (splitLinesList_ne_nil cs)
      | cons r rs =>
        rw [hs] at ih
        simp [joinCharLines, ih]
    · simp only [h, if_false]
      cases hs : splitLinesList cs with
      | nil => exact absurd hs (splitLinesList_ne_nil cs)
      | cons r rs =>
        rw [hs] at ih
        cases rs with
        | nil => simp [joinCharLines] at ih ⊢; rw [ih]
        | cons r2 rs2 => simp [joinCharLines] at ih ⊢; exact ih

theorem joinNL_map_mk (ls : List (List Char)) :
    joinNL (ls.map String.mk) = String.mk (joinCharLines ls) := by
  induction ls with
  | nil => rfl
  | cons a tl ih =>
    cases tl with
    | nil => rfl
    | cons b tl2 =>
      simp only [List.map_cons] at ih ⊢
      show String.mk a ++ "\n" ++ joinNL (String.mk b :: List.map String.mk tl2) = _
      rw [ih]
      show String.mk ((a ++ ['\n']) ++ joinCharLines (b :: tl2)) = _
      congr 1
      simp [joinCharLines]

/-- `"\n".join(s.split("\n")) == s`. -/
theorem joinNL_splitLines (s : String) : joinNL (splitLines s) = s := by
  rw [splitLines, joinNL_map_mk, joinCharLines_splitLinesList]

/-! ### Lemmas on the insertion-ordered map -/

theorem getEntry_setEntry_self (m : List (String × FileChange)) (k : String) (v : FileChange) :
    getEntry (setEntry m k v) k = some v := by
  induction m with
  | nil => simp [setEntry, getEntry]
  | cons kv rest ih =>
    obtain ⟨k1, v1⟩ := kv
    simp only [setEntry]
    by_cases h : k1 = k
    · simp [h, getEntry]
    · simp [h, getEntry, ih]

theorem getEntry_setEntry_ne (m : List (String × FileChange)) (k p : String) (v : FileChange)
    (h : k ≠ p) : getEntry (setEntry m k v) p = getEntry m p := by
  induction m with
  | nil => simp [setEntry, getEntry, h]
  | cons kv rest ih =>
    obtain ⟨k1, v1⟩ := kv
    simp only [setEntry]
    by_cases h1 : k1 = k
    · subst h1
      simp [getEntry, h]
    · simp [getEntry, h1, ih]

theorem getEntry_modifyEntry_ne (m : List (String × FileChange)) (k p : String)
    (g : FileChange → FileChange) (h : k ≠ p) :
    getEntry (modifyEntry m k g) p = getEntry m p := by
  unfold modifyEntry
  cases getEntry m k with
  | none => rfl
  | some e => exact getEntry_setEntry_ne m k p (g e) h

theorem getEntry_isSome_iff_mem (m : List (String × FileChange)) (k : String) :
    (getEntry m k).isSome = true ↔ k ∈ m.map Prod.fst := by
  induction m with
  | nil => simp [getEntry]
  | cons kv rest ih =>
    obtain ⟨k1, v1⟩ := kv
    simp only [getEntry, List.map_cons, List.mem_cons]
    by_cases h : k1 = k
    · simp [h]
    · simp [h, ih, Ne.symm h]

theorem keys_setEntry_mem (m : List (String × FileChange)) (k : String) (v : FileChange)
    (h : k ∈ m.map Prod.fst) :
    (setEntry m k v).map Prod.fst = m.map Prod.fst := by
  induction m with
  | nil => simp at h
  | cons kv rest ih =>
    obtain ⟨k1, v1⟩ := kv
    simp only [List.map_cons, List.mem_cons] at h
    simp only [setEntry]
    by_cases h1 : k1 = k
    · simp [h1]
    · have : k ∈ rest.map Prod.fst := by
        rcases h with h | h
        · exact absurd h.symm h1
        · exact h
      simp [h1, ih this]

theorem keys_setEntry_not_mem (m : List (String × FileChange)) (k : String) (v : FileChange)
    (h : ¬ k ∈ m.map Prod.fst) :
    (setEntry m k v).map Prod.fst = m.map Prod.fst ++ [k] := by
  induction m with
  | nil => simp [setEntry]
  | cons kv rest ih =>
    obtain ⟨k1, v1⟩ := kv
    simp only [List.map_cons, List.mem_cons] at h
    push_neg at h
    simp only [setEntry]
    by_cases h1 : k1 = k
    · exact absurd h1.symm h.1
    · simp [h1, ih h.2]

theorem keys_modifyEntry (m : List (String × FileChange)) (k : String)
    (g : FileChange → FileChange) :
    (modifyEntry m k g).map Prod.fst = m.map Prod.fst := by
  unfold modifyEntry
  cases hk : getEntry m k with
  | none => rfl
  | some e =>
    apply keys_setEntry_mem
    rw [← getEntry_isSome_iff_mem, hk]
    rfl

theorem getEntry_of_all (P : FileChange → Prop) (m : List (String × FileChange))
    (hall : ∀ pc ∈ m, P pc.2) (k : String) (e : FileChange)
    (h : getEntry m k = some e) : P e := by
  induction m with
  | nil => simp [getEntry] at h
  | cons kv rest ih =>
    obtain ⟨k1, v1⟩ := kv
    simp only [getEntry] at h
    by_cases h1 : k1 = k
    · simp [h1] at h
      subst h
      exact hall (k1, v1) (List.mem_cons_self _ _)
    · simp [h1] at h
      exact ih (fun pc hpc => hall pc (List.mem_cons_of_mem _ hpc)) h

theorem all_setEntry (P : FileChange → Prop) (m : List (String × FileChange))
    (k : String) (v : FileChange) (hall : ∀ pc ∈ m, P pc.2) (hv : P v) :
    ∀ pc ∈ setEntry m k v, P pc.2 := by
  induction m with
  | nil =>
    intro pc hpc
    simp [setEntry] at hpc
    subst hpc
    exact hv
  | cons kv rest ih =>
    obtain ⟨k1, v1⟩ := kv
    intro pc hpc
    simp only [setEntry] at hpc
    by_cases h1 : k1 = k
    · simp only [h1, if_true] at hpc
      rcases List.mem_cons.mp hpc with h | h
      · subst h; exact hv
      · exact hall pc (List.mem_cons_of_mem _ h)
    · simp only [h1, if_false] at hpc
      rcases List.mem_cons.mp hpc with h | h
      · subst h; exact hall (k1, v1) (List.mem_cons_self _ _)
      · exact ih (fun pc hpc => hall pc (List.mem_cons_of_mem _ hpc)) pc h

theorem all_modifyEntry (P : FileChange → Prop) (m : List (String × FileChange))
    (k : String) (g : FileChange → FileChange) (hall : ∀ pc ∈ m, P pc.2)
    (hg : ∀ e, P e → P (g e)) :
    ∀ pc ∈ modifyEntry m k g, P pc.2 := by
  unfold modifyEntry
  cases hk : getEntry m k with
  | none => exact hall
  | some e => exact all_setEntry P m k (g e) hall (hg e (getEntry_of_all P m hall k e hk))


/-! ### The current-file invariant of the parser, and totality -/

theorem markCurrent_cf (st : PState) (g : FileChange → FileChange) :
    (markCurrent st g).cf = st.cf := by
  obtain ⟨fc, cf⟩ := st
  cases cf with
  | none => rfl
  | some f =>
    simp only [markCurrent, cfTruthy]
    by_cases hf : f = "" <;> simp [hf]

theorem contentStep_cf (st : PState) (line : String) :
    (contentStep st line).cf = st.cf := by
  obtain ⟨fc, cf⟩ := st
  cases cf with
  | none => rfl
  | some f =>
    simp only [contentStep, cfTruthy]
    by_cases hf : f = ""
    · simp [hf]
    · simp only [hf, if_false, if_true]
      cases getEntry fc f with
      | none => rfl
      | some e =>
        by_cases he : e.hunks = []
        · simp [he]
        · simp only [he, if_false]
          unfold contentLine
          split_ifs <;> rfl

theorem parseStep_cf (st : PState) (line : String) :
    (parseStep st line).cf =
      if strStartsWith line "+++ b/" then some (strDrop line 6) else st.cf := by
  unfold parseStep
  split_ifs with h1 h2 h3 h4 h5
  · rfl
  · rfl
  · exact markCurrent_cf st _
  · exact markCurrent_cf st _
  · cases parseHunkHeader line with
    | some h => exact markCurrent_cf st _
    | none => rfl
  · exact contentStep_cf st line

theorem markCurrent_ok (st : PState) (g : FileChange → FileChange) (h : ParserInv st) :
    markCurrentChecked st g = some (markCurrent st g) := by
  obtain ⟨fc, cf⟩ := st
  cases cf with
  | none => rfl
  | some f =>
    simp only [markCurrent, markCurrentChecked, cfTruthy]
    by_cases hf : f = ""
    · simp [hf]
    · simp only [hf, if_false, if_true]
      have hs := h f rfl
      unfold modifyEntryChecked modifyEntry
      cases hg : getEntry fc f with
      | none => rw [hg] at hs; simp at hs
      | some e => simp

theorem contentStep_ok (st : PState) (line : String) (h : ParserInv st) :
    contentStepChecked st line = some (contentStep st line) := by
  obtain ⟨fc, cf⟩ := st
  cases cf with
  | none => rfl
  | some f =>
    simp only [contentStep, contentStepChecked, cfTruthy]
    by_cases hf : f = ""
    · simp [hf]
    · simp only [hf, if_false, if_true]
      have hs := h f rfl
      cases hg : getEntry fc f with
      | none => rw [hg] at hs; simp at hs
      | some e => simp

theorem getEntry_modifyEntry_isSome (m : List (String × FileChange)) (k : String)
    (g : FileChange → FileChange) (h : (getEntry m k).isSome = true) :
    (getEntry (modifyEntry m k g) k).isSome = true := by
  unfold modifyEntry
  cases hg : getEntry m k with
  | none => rw [hg] at h; simp at h
  | some e => simp [getEntry_setEntry_self]

theorem markCurrent_inv (st : PState) (g : FileChange → FileChange) (h : ParserInv st) :
    ParserInv (markCurrent st g) := by
  obtain ⟨fc, cf⟩ := st
  cases cf with
  | none => exact h
  | some f =>
    simp only [markCurrent, cfTruthy]
    by_cases hf : f = ""
    · subst hf
      simpa using h
    · simp only [hf, if_false, if_true]
      intro f2 hf2
      simp only at hf2
      cases hf2
      exact getEntry_modifyEntry_isSome fc f g (h f rfl)

theorem contentStep_inv (st : PState) (line : String) (h : ParserInv st) :
    ParserInv (contentStep st line) := by
  obtain ⟨fc, cf⟩ := st
  cases cf with
  | none => exact h
  | some f =>
    simp only [contentStep, cfTruthy]
    by_cases hf : f = ""
    · subst hf
      simpa using h
    · simp only [hf, if_false, if_true]
      cases hg : getEntry fc f with
      | none => exact h
      | some e =>
        by_cases he : e.hunks = []
        · simpa [he] using h
        · simp only [he, if_false]
          unfold contentLine
          split_ifs
          · intro f2 hf2
            simp only at hf2
            cases hf2
            simp [getEntry_setEntry_self]
          · intro f2 hf2
            simp only at hf2
            cases hf2
            simp [getEntry_setEntry_self]
          · intro f2 hf2
            simp only at hf2
            cases hf2
            simp [getEntry_setEntry_self]
          · exact h

theorem parseStep_inv (st : PState) (line : String) (h : ParserInv st) :
    ParserInv (parseStep st line) := by
  unfold parseStep
  split_ifs with h1 h2 h3 h4 h5
  · intro f2 hf2
    simp only at hf2
    cases hf2
    simp [getEntry_setEntry_self]
  · exact h
  · exact markCurrent_inv st _ h
  · exact markCurrent_inv st _ h
  · cases parseHunkHeader line with
    | some hk => exact markCurrent_inv st _ h
    | none => exact h
  · exact contentStep_inv st line h

theorem parseStep_ok (st : PState) (line : String) (h : ParserInv st) :
    parseStepChecked st line = some (parseStep st line) := by
  unfold parseStep parseStepChecked
  split_ifs with h1 h2 h3 h4 h5
  · rfl
  · rfl
  · exact markCurrent_ok st _ h
  · exact markCurrent_ok st _ h
  · cases parseHunkHeader line with
    | some hk => exact markCurrent_ok st _ h
    | none => rfl
  · exact contentStep_ok st line h

theorem runLines_inv (ls : List String) : ∀ st : PState, ParserInv st →
    ParserInv (runLines st ls) := by
  induction ls with
  | nil => intro st h; exact h
  | cons l ls ih => intro st h; exact ih (parseStep st l) (parseStep_inv st l h)

theorem runLinesChecked_eq (ls : List String) : ∀ st : PState, ParserInv st →
    runLinesChecked st ls = some (runLines st ls) := by
  induction ls with
  | nil => intro st h; rfl
  | cons l ls ih =>
    intro st h
    simp only [runLinesChecked, runLines, parseStep_ok st l h]
    exact ih (parseStep st l) (parseStep_inv st l h)

theorem initState_inv : ParserInv { fc := [], cf := none } := by
  intro f hf
  simp at hf

/-! ### Lemmas about the reconstructor -/

theorem copyBeforeAux_stop (fuel : Nat) (orig : List String) (idx : Nat) (target : Int)
    (acc : List String) (h : ¬((idx : Int) < target)) :
    copyBeforeAux fuel orig idx target acc = (acc, idx) := by
  cases fuel with
  | zero => rfl
  | succ n => simp [copyBeforeAux, h]

theorem joinNL_cons_of_ne_nil (x : String) (l : List String) (h : l ≠ []) :
    joinNL (x :: l) = x ++ "\n" ++ joinNL l := by
  cases l with
  | nil => exact absurd rfl h
  | cons y ys => rfl

theorem str_append_assoc (a b c : String) : a ++ b ++ c = a ++ (b ++ c) := by
  obtain ⟨la⟩ := a
  obtain ⟨lb⟩ := b
  obtain ⟨lc⟩ := c
  rw [mk_append, mk_append, mk_append, mk_append]
  congr 1
  exact List.append_assoc la lb lc

/-- **C5.** The patch parser is total: for every input string the checked
run — in which every dictionary or list access `_parse_patch` performs is
modelled as failing (`none`) when out of bounds — succeeds and returns
exactly the parse state of the total model.  In particular parsing never
raises and always yields a (possibly empty or partial) path-to-FileChange
mapping. -/
theorem C5_parser_total (patch : String) :
    parsePatchChecked patch = some (parsePatchState patch) :=
  runLinesChecked_eq (splitLines patch) { fc := [], cf := none } initState_inv

/-- **C4.** For every `FileChange` with no hunks and every original
content, `_apply_patch_to_content` returns exactly the added lines joined
by newline; the original content has no influence. -/
theorem C4_apply_without_hunks (original : String) (changes : FileChange)
    (h : changes.hunks = []) :
    apply_patch_to_content original changes = joinNL changes.added_lines := by
  unfold apply_patch_to_content
  simp [h]

/-- Witness for C4 at a concrete no-hunk change and original. -/
theorem C4_apply_without_hunks_witness :
    (FileChange.hunks ⟨false, false, ["hello", "world"], [], []⟩ = []) ∧
    apply_patch_to_content "some\noriginal\ncontent"
        ⟨false, false, ["hello", "world"], [], []⟩ =
      joinNL ["hello", "world"] :=
  ⟨rfl, C4_apply_without_hunks "some\noriginal\ncontent"
    ⟨false, false, ["hello", "world"], [], []⟩ rfl⟩

/-- **C3.** Applying a `FileChange` whose single hunk has `old_start = 1`
and tagged lines context "context1", remove "old2", add "new2", context
"context3" to the original `"context1\nold2\ncontext3"` yields exactly
`"context1\nnew2\ncontext3"` — a context line is copied and consumes one
original line, an add line is appended without consuming, and a remove
line consumes one original line without appending (the unspecified fields
of the change are universally quantified: the computation ignores them). -/
theorem C3_apply_single_hunk (isN isD : Bool) (al rl : List String) (oc ns nc : Nat) :
    apply_patch_to_content "context1\nold2\ncontext3"
      ⟨isN, isD, al, rl,
        [⟨1, oc, ns, nc, [(Tag.context, "context1"), (Tag.remove, "old2"),
          (Tag.add, "new2"), (Tag.context, "context3")]⟩]⟩ =
      "context1\nnew2\ncontext3" := rfl

/-- **C1, counterexample.** On the patch of the claim the parsed `FileChange`
for `new.txt` has `is_new = false` (not `true` as claimed), and applying
it to the original content `"X"` yields `"hello\nworld\nX"`, not
`"hello\nworld"`: the hunk consumes no original line, so every line of the
original is copied after the added lines. -/
theorem C1_counterexample :
    parse_patch scenarioAPatch = [("new.txt", scenarioAChange)] ∧
    scenarioAChange.is_new = false ∧
    apply_patch_to_content "X" scenarioAChange = "hello\nworld\nX" ∧
    "hello\nworld\nX" ≠ "hello\nworld" := by
  refine ⟨by decide, rfl, by rfl, by decide⟩

/-- **C1, amended.** Parsing the Scenario A patch yields a `FileChange`
for `"new.txt"` with `is_new = false` (the `--- /dev/null` marker precedes
the `+++ b/` header, so no file is current when it is read) and
`added_lines = ["hello", "world"]`; applying that change to any original
content `s` yields `"hello\nworld\n" ++ s` — the added lines followed by
the whole original — rather than `"hello\nworld"`. -/
theorem C1_amended (original : String) :
    parse_patch scenarioAPatch = [("new.txt", scenarioAChange)] ∧
    scenarioAChange.is_new = false ∧
    apply_patch_to_content original scenarioAChange = "hello\nworld\n" ++ original := by
  refine ⟨by decide, rfl, ?_⟩
  unfold apply_patch_to_content
  rw [if_neg (by decide : ¬scenarioAChange.hunks = [])]
  show joinNL ((applyOneHunk (splitLines original) ([], 0)
      ⟨0, 0, 1, 2, [(Tag.add, "hello"), (Tag.add, "world")]⟩).1 ++
    (splitLines original).drop
      (applyOneHunk (splitLines original) ([], 0)
        ⟨0, 0, 1, 2, [(Tag.add, "hello"), (Tag.add, "world")]⟩).2) = _
  unfold applyOneHunk copyBefore
  rw [copyBeforeAux_stop _ _ _ _ _ (by decide)]
  show joinNL (["hello", "world"] ++ (splitLines original).drop 0) = _
  rw [List.drop_zero]
  have h1 : splitLines original ≠ [] := splitLines_ne_nil original
  have h2 : ("world" :: splitLines original) ≠ [] := by simp
  rw [List.cons_append, List.cons_append, List.nil_append,
    joinNL_cons_of_ne_nil _ _ h2, joinNL_cons_of_ne_nil _ _ h1, joinNL_splitLines]
  rw [← str_append_assoc ("hello" ++ "\n") ("world" ++ "\n") original]
  rfl

/-! ### The deletion flag: where it can come from -/

theorem all_markCurrent (P : FileChange → Prop) (st : PState) (g : FileChange → FileChange)
    (hall : ∀ pc ∈ st.fc, P pc.2) (hg : ∀ e, P e → P (g e)) :
    ∀ pc ∈ (markCurrent st g).fc, P pc.2 := by
  obtain ⟨fc, cf⟩ := st
  cases cf with
  | none => exact hall
  | some f =>
    simp only [markCurrent, cfTruthy]
    by_cases hf : f = ""
    · simpa [hf] using hall
    · simp only [hf, if_false, if_true]
      exact all_modifyEntry P fc f g hall hg

theorem all_contentStep (P : FileChange → Prop) (st : PState) (line : String)
    (hall : ∀ pc ∈ st.fc, P pc.2)
    (hpush : ∀ e tg t, P e → P (pushLastHunkLine e tg t))
    (hadd : ∀ e t, P e → P { e with added_lines := e.added_lines ++ [t] })
    (hrem : ∀ e t, P e → P { e with removed_lines := e.removed_lines ++ [t] }) :
    ∀ pc ∈ (contentStep st line).fc, P pc.2 := by
  obtain ⟨fc, cf⟩ := st
  cases cf with
  | none => exact hall
  | some f =>
    simp only [contentStep, cfTruthy]
    by_cases hf : f = ""
    · simpa [hf] using hall
    · simp only [hf, if_false, if_true]
      cases hg : getEntry fc f with
      | none => exact hall
      | some e =>
        have he : P e := getEntry_of_all P fc hall f e hg
        by_cases hh : e.hunks = []
        · simpa [hh] using hall
        · simp only [hh, if_false]
          unfold contentLine
          split_ifs
          · exact all_setEntry P fc f _ hall (hadd _ _ (hpush e Tag.add _ he))
          · exact all_setEntry P fc f _ hall (hrem _ _ (hpush e Tag.remove _ he))
          · exact all_setEntry P fc f _ hall (hpush e Tag.context _ he)
          · exact hall

theorem parseStep_all_not_deleted (st : PState) (line : String)
    (hl : strStartsWith line "+++ /dev/null" = false)
    (hall : ∀ pc ∈ st.fc, pc.2.is_deleted = false) :
    ∀ pc ∈ (parseStep st line).fc, pc.2.is_deleted = false := by
  unfold parseStep
  split_ifs with h1 h2 h3 h4 h5
  · exact all_setEntry (fun e => e.is_deleted = false) st.fc _ _ hall rfl
  · exact hall
  · exact all_markCurrent (fun e => e.is_deleted = false) st _ hall (fun e he => he)
  · rw [hl] at h4; exact absurd h4 (by simp)
  · cases parseHunkHeader line with
    | some hk => exact all_markCurrent (fun e => e.is_deleted = false) st _ hall (fun e he => he)
    | none => exact hall
  · exact all_contentStep (fun e => e.is_deleted = false) st line hall
      (fun e tg t he => he) (fun e t he => he) (fun e t he => he)

theorem runLines_all_not_deleted (ls : List String) : ∀ st : PState,
    (∀ l ∈ ls, strStartsWith l "+++ /dev/null" = false) →
    (∀ pc ∈ st.fc, pc.2.is_deleted = false) →
    ∀ pc ∈ (runLines st ls).fc, pc.2.is_deleted = false := by
  induction ls with
  | nil => intro st _ hall; exact hall
  | cons l ls ih =>
    intro st hls hall
    exact ih (parseStep st l) (fun l2 hl2 => hls l2 (List.mem_cons_of_mem _ hl2))
      (parseStep_all_not_deleted st l (hls l (List.mem_cons_self _ _)) hall)

/-- **C9, counterexample.** The parser does not enforce mutual exclusion
of `is_new` and `is_deleted`: on `dualFlagPatch` the entry for `f.txt` has
both flags `true`. -/
theorem C9_counterexample :
    parse_patch dualFlagPatch = [("f.txt", ⟨true, true, [], [], []⟩)] ∧
    (true && true) = true := by
  refine ⟨by decide, rfl⟩

/-- **C9, amended.** A parsed `FileChange` can only have `is_deleted =
true` if the patch contains a line starting with `+++ /dev/null`;
therefore, for every patch with no such line, no `FileChange` in the
output has both `is_new` and `is_deleted` set. -/
theorem C9_amended (patch : String)
    (h : ∀ l ∈ splitLines patch, strStartsWith l "+++ /dev/null" = false) :
    ∀ pc ∈ parse_patch patch, ¬(pc.2.is_new = true ∧ pc.2.is_deleted = true) := by
  intro pc hpc hand
  have hdel : pc.2.is_deleted = false :=
    runLines_all_not_deleted (splitLines patch) { fc := [], cf := none } h
      (by intro pc2 hpc2; simp at hpc2) pc hpc
  rw [hand.2] at hdel
  exact Bool.noConfusion hdel

/-- Witness for C9 at a concrete patch with no deletion marker. -/
theorem C9_amended_witness :
    (∀ l ∈ splitLines "+++ b/g.txt\n--- /dev/null", strStartsWith l "+++ /dev/null" = false) ∧
    ¬(((⟨true, false, [], [], []⟩ : FileChange).is_new = true) ∧
      ((⟨true, false, [], [], []⟩ : FileChange).is_deleted = true)) :=
  ⟨by decide, C9_amended "+++ b/g.txt\n--- /dev/null" (by decide)
    ("g.txt", ⟨true, false, [], [], []⟩) (by decide)⟩

/-! ### Duplicate `+++ b/` headers re-initialize the entry (C10) -/

theorem markCurrent_congr (p : String) (st1 st2 : PState) (g : FileChange → FileChange)
    (hcf : st1.cf = st2.cf) (hp : getEntry st1.fc p = getEntry st2.fc p) :
    getEntry (markCurrent st1 g).fc p = getEntry (markCurrent st2 g).fc p := by
  obtain ⟨fc1, cf1⟩ := st1
  obtain ⟨fc2, cf2⟩ := st2
  simp only at hcf hp
  subst hcf
  cases cf1 with
  | none => simpa [markCurrent, cfTruthy] using hp
  | some f =>
    simp only [markCurrent, cfTruthy]
    by_cases hf : f = ""
    · simpa [hf] using hp
    · simp only [hf, if_false, if_true]
      by_cases hfp : f = p
      · subst hfp
        unfold modifyEntry
        rw [hp]
        cases getEntry fc2 f with
        | none => exact hp
        | some e => simp [getEntry_setEntry_self]
      · show getEntry (modifyEntry fc1 f g) p = getEntry (modifyEntry fc2 f g) p
        rw [getEntry_modifyEntry_ne fc1 f p g hfp, getEntry_modifyEntry_ne fc2 f p g hfp]
        exact hp

theorem contentStep_getEntry_ne (st : PState) (line f p : String)
    (hcf : st.cf = some f) (hfp : f ≠ p) :
    getEntry (contentStep st line).fc p = getEntry st.fc p := by
  obtain ⟨fc, cf⟩ := st
  simp only at hcf
  subst hcf
  simp only [contentStep, cfTruthy]
  by_cases hf : f = ""
  · simp [hf]
  · simp only [hf, if_false, if_true]
    cases getEntry fc f with
    | none => rfl
    | some e =>
      by_cases hh : e.hunks = []
      · simp [hh]
      · simp only [hh, if_false]
        unfold contentLine
        split_ifs
        · exact getEntry_setEntry_ne fc f p _ hfp
        · exact getEntry_setEntry_ne fc f p _ hfp
        · exact getEntry_setEntry_ne fc f p _ hfp
        · rfl

theorem contentStep_congr (p : String) (st1 st2 : PState) (line : String)
    (hcf : st1.cf = st2.cf) (hp : getEntry st1.fc p = getEntry st2.fc p) :
    getEntry (contentStep st1 line).fc p = getEntry (contentStep st2 line).fc p := by
  obtain ⟨fc1, cf1⟩ := st1
  obtain ⟨fc2, cf2⟩ := st2
  simp only at hcf hp
  subst hcf
  cases cf1 with
  | none => simpa [contentStep, cfTruthy] using hp
  | some f =>
    by_cases hfp : f = p
    · subst hfp
      simp only [contentStep, cfTruthy]
      by_cases hf : f = ""
      · simpa [hf] using hp
      · simp only [hf, if_false, if_true]
        cases h1 : getEntry fc1 f with
        | none =>
          have h2 : getEntry fc2 f = none := hp.symm.trans h1
          simp only [h1, h2]
        | some e =>
          have h2 : getEntry fc2 f = some e := hp.symm.trans h1
          simp only [h1, h2]
          by_cases hh : e.hunks = []
          · simpa [hh] using hp
          · simp only [hh, if_false]
            unfold contentLine
            split_ifs
            · show getEntry (setEntry fc1 f _) f = getEntry (setEntry fc2 f _) f
              rw [getEntry_setEntry_self, getEntry_setEntry_self]
            · show getEntry (setEntry fc1 f _) f = getEntry (setEntry fc2 f _) f
              rw [getEntry_setEntry_self, getEntry_setEntry_self]
            · show getEntry (setEntry fc1 f _) f = getEntry (setEntry fc2 f _) f
              rw [getEntry_setEntry_self, getEntry_setEntry_self]
            · exact hp
    · rw [contentStep_getEntry_ne ⟨fc1, some f⟩ line f p rfl hfp,
        contentStep_getEntry_ne ⟨fc2, some f⟩ line f p rfl hfp]
      exact hp

theorem parseStep_congr (p : String) (st1 st2 : PState) (l : String)
    (hcf : st1.cf = st2.cf) (hp : getEntry st1.fc p = getEntry st2.fc p)
    (hl : ¬ isHeaderFor p l) :
    getEntry (parseStep st1 l).fc p = getEntry (parseStep st2 l).fc p := by
  unfold parseStep
  split_ifs with h1 h2 h3 h4 h5
  · have hq : strDrop l 6 ≠ p := fun he => hl ⟨h1, he⟩
    show getEntry (setEntry st1.fc (strDrop l 6) freshFileChange) p =
      getEntry (setEntry st2.fc (strDrop l 6) freshFileChange) p
    rw [getEntry_setEntry_ne _ _ _ _ hq, getEntry_setEntry_ne _ _ _ _ hq]
    exact hp
  · exact hp
  · exact markCurrent_congr p st1 st2 _ hcf hp
  · exact markCurrent_congr p st1 st2 _ hcf hp
  · cases parseHunkHeader l with
    | some hk => exact markCurrent_congr p st1 st2 _ hcf hp
    | none => exact hp
  · exact contentStep_congr p st1 st2 l hcf hp

theorem runLines_congr (p : String) (ls : List String) : ∀ st1 st2 : PState,
    st1.cf = st2.cf → getEntry st1.fc p = getEntry st2.fc p →
    (∀ l ∈ ls, ¬ isHeaderFor p l) →
    getEntry (runLines st1 ls).fc p = getEntry (runLines st2 ls).fc p := by
  induction ls with
  | nil => intro st1 st2 _ hp _; exact hp
  | cons l ls ih =>
    intro st1 st2 hcf hp hls
    apply ih
    · rw [parseStep_cf, parseStep_cf, hcf]
    · exact parseStep_congr p st1 st2 l hcf hp (hls l (List.mem_cons_self _ _))
    · intro l2 hl2
      exact hls l2 (List.mem_cons_of_mem _ hl2)

theorem runLines_append (a b : List String) : ∀ st : PState,
    runLines st (a ++ b) = runLines (runLines st a) b := by
  induction a with
  | nil => intro st; rfl
  | cons l a ih =>
    intro st
    simp only [List.cons_append, runLines]
    exact ih _

theorem headerPaths_cons (l : String) (ls : List String) :
    headerPaths (l :: ls) =
      if strStartsWith l "+++ b/" then strDrop l 6 :: headerPaths ls
      else headerPaths ls := by
  by_cases h : strStartsWith l "+++ b/" = true <;> simp [headerPaths, List.filterMap_cons, h]

theorem keys_markCurrent (st : PState) (g : FileChange → FileChange) :
    (markCurrent st g).fc.map Prod.fst = st.fc.map Prod.fst := by
  obtain ⟨fc, cf⟩ := st
  cases cf with
  | none => rfl
  | some f =>
    simp only [markCurrent, cfTruthy]
    by_cases hf : f = "" <;> simp [hf, keys_modifyEntry]

theorem keys_contentStep (st : PState) (line : String) :
    (contentStep st line).fc.map Prod.fst = st.fc.map Prod.fst := by
  obtain ⟨fc, cf⟩ := st
  cases cf with
  | none => rfl
  | some f =>
    simp only [contentStep, cfTruthy]
    by_cases hf : f = ""
    · simp [hf]
    · simp only [hf, if_false, if_true]
      cases hg : getEntry fc f with
      | none => rfl
      | some e =>
        have hmem : f ∈ fc.map Prod.fst :=
          (getEntry_isSome_iff_mem fc f).mp (by rw [hg]; rfl)
        by_cases hh : e.hunks = []
        · simp [hh]
        · simp only [hh, if_false]
          unfold contentLine
          split_ifs
          · exact keys_setEntry_mem fc f _ hmem
          · exact keys_setEntry_mem fc f _ hmem
          · exact keys_setEntry_mem fc f _ hmem
          · rfl

theorem parseStep_keys (st : PState) (l : String) :
    (parseStep st l).fc.map Prod.fst =
      if strStartsWith l "+++ b/" then
        (if strDrop l 6 ∈ st.fc.map Prod.fst then st.fc.map Prod.fst
         else st.fc.map Prod.fst ++ [strDrop l 6])
      else st.fc.map Prod.fst := by
  unfold parseStep
  by_cases h1 : strStartsWith l "+++ b/" = true
  · rw [if_pos h1, if_pos h1]
    show (setEntry st.fc (strDrop l 6) freshFileChange).map Prod.fst = _
    by_cases hm : strDrop l 6 ∈ st.fc.map Prod.fst
    · rw [if_pos hm]
      exact keys_setEntry_mem _ _ _ hm
    · rw [if_neg hm]
      exact keys_setEntry_not_mem _ _ _ hm
  · rw [if_neg h1, if_neg h1]
    split_ifs with h2 h3 h4 h5
    · rfl
    · exact keys_markCurrent st _
    · exact keys_markCurrent st _
    · cases parseHunkHeader l with
      | some hk => exact keys_markCurrent st _
      | none => rfl
    · exact keys_contentStep st l

theorem runLines_keys (ls : List String) : ∀ st : PState,
    (runLines st ls).fc.map Prod.fst = insertAll (st.fc.map Prod.fst) (headerPaths ls) := by
  induction ls with
  | nil => intro st; rfl
  | cons l ls ih =>
    intro st
    show (runLines (parseStep st l) ls).fc.map Prod.fst = _
    rw [ih, parseStep_keys, headerPaths_cons]
    by_cases h1 : strStartsWith l "+++ b/" = true
    · simp only [h1, if_true]
      rfl
    · simp [h1]

theorem header_startsWith (p : String) : strStartsWith ("+++ b/" ++ p) "+++ b/" = true := by
  show charsStartWith ("+++ b/".data) (("+++ b/" ++ p).data) = true
  have h : ("+++ b/" ++ p).data = "+++ b/".data ++ p.data := rfl
  rw [h]
  exact charsStartWith_append_self _ _

theorem strDrop_header (p : String) : strDrop ("+++ b/" ++ p) 6 = p := rfl

/-- **C10.** If a patch splits into `pre ++ ["+++ b/" ++ p] ++ suf` where
`suf` contains no further `+++ b/p` header (so the shown header is the
last — e.g. the second — one for `p`), then the parse result for `p` is
exactly what parsing from that last header onward produces: everything
recorded for `p` from earlier occurrences is discarded.  Moreover the
key list of the result is the first-appearance-ordered dedup of all
header paths of the whole patch, so `p` keeps the position of its first
appearance. -/
theorem C10_duplicate_header (patch p : String) (pre suf : List String)
    (hsplit : splitLines patch = pre ++ ("+++ b/" ++ p) :: suf)
    (hsuf : ∀ l ∈ suf, ¬ isHeaderFor p l) :
    getEntry (parse_patch patch) p =
      getEntry (runLines { fc := [], cf := none } (("+++ b/" ++ p) :: suf)).fc p ∧
    (parse_patch patch).map Prod.fst =
      insertAll [] (headerPaths (splitLines patch)) := by
  constructor
  · unfold parse_patch parsePatchState
    rw [hsplit, runLines_append]
    show getEntry (runLines (parseStep (runLines ⟨[], none⟩ pre) ("+++ b/" ++ p)) suf).fc p =
      getEntry (runLines (parseStep ⟨[], none⟩ ("+++ b/" ++ p)) suf).fc p
    have h1 : ∀ st : PState, getEntry (parseStep st ("+++ b/" ++ p)).fc p = some freshFileChange := by
      intro st
      unfold parseStep
      rw [if_pos (header_startsWith p)]
      show getEntry (setEntry st.fc (strDrop ("+++ b/" ++ p) 6) freshFileChange) p = _
      rw [strDrop_header]
      exact getEntry_setEntry_self _ _ _
    apply runLines_congr p suf
    · rw [parseStep_cf, parseStep_cf]
      simp [header_startsWith p]
    · rw [h1, h1]
    · exact hsuf
  · unfold parse_patch parsePatchState
    rw [runLines_keys]
    rfl

/-- Witness for C10 at a concrete patch whose `+++ b/f` header appears
twice: the `is_new` flag set after the first header is discarded by the
second. -/
theorem C10_duplicate_header_witness :
    (splitLines "+++ b/f\n--- /dev/null\n+++ b/f\n@@ -1 +1 @@\n+x" =
      ["+++ b/f", "--- /dev/null"] ++ ("+++ b/" ++ "f") :: ["@@ -1 +1 @@", "+x"]) ∧
    (∀ l ∈ ["@@ -1 +1 @@", "+x"], ¬ isHeaderFor "f" l) ∧
    (getEntry (parse_patch "+++ b/f\n--- /dev/null\n+++ b/f\n@@ -1 +1 @@\n+x") "f" =
      getEntry (runLines { fc := [], cf := none }
        (("+++ b/" ++ "f") :: ["@@ -1 +1 @@", "+x"])).fc "f" ∧
     (parse_patch "+++ b/f\n--- /dev/null\n+++ b/f\n@@ -1 +1 @@\n+x").map Prod.fst =
       insertAll [] (headerPaths (splitLines "+++ b/f\n--- /dev/null\n+++ b/f\n@@ -1 +1 @@\n+x"))) :=
  ⟨by decide, by decide,
   C10_duplicate_header "+++ b/f\n--- /dev/null\n+++ b/f\n@@ -1 +1 @@\n+x" "f"
     ["+++ b/f", "--- /dev/null"] ["@@ -1 +1 @@", "+x"] (by decide) (by decide)⟩

/-! ### Commit-builder claims -/

/-- **C6.** In the per-file step of the commit builder, every failure of
the base-content fetch for a modified (not new, not deleted) file —
whether a non-200 response or a raised exception — results in the file
being treated as a new file whose content is `added_lines` joined by
newline: exactly one blob with that content, and no error escapes (the
step is a total function). -/
theorem C6_fetch_failure_degrades (env : BuildEnv) (base_sha file_path : String)
    (changes : FileChange) (hn : changes.is_new = false) (hd : changes.is_deleted = false)
    (hf : ∀ body, env.fetch file_path ≠ FetchResult.ok 200 body) :
    processFileChange env base_sha file_path changes =
      ({ path := file_path, mode := "100644",
         sha := some (env.blobSha (joinNL changes.added_lines)) },
       [RemoteCall.getContents file_path base_sha,
        RemoteCall.createBlob (joinNL changes.added_lines)]) := by
  unfold processFileChange
  rw [hn, hd]
  simp only [Bool.false_eq_true, if_false]
  cases hfr : env.fetch file_path with
  | exn => rfl
  | ok status body =>
    by_cases hs : status = 200
    · subst hs
      exact absurd hfr (hf body)
    · simp [hs]

/-- Witness for C6: a concrete modified file whose fetch raises. -/
theorem C6_fetch_failure_degrades_witness :
    ((⟨false, false, ["a", "b"], ["c"], []⟩ : FileChange).is_new = false) ∧
    ((⟨false, false, ["a", "b"], ["c"], []⟩ : FileChange).is_deleted = false) ∧
    (∀ body, sampleEnv.fetch "dir/file.txt" ≠ FetchResult.ok 200 body) ∧
    processFileChange sampleEnv "basesha" "dir/file.txt" ⟨false, false, ["a", "b"], ["c"], []⟩ =
      ({ path := "dir/file.txt", mode := "100644",
         sha := some (sampleEnv.blobSha (joinNL ["a", "b"])) },
       [RemoteCall.getContents "dir/file.txt" "basesha",
        RemoteCall.createBlob (joinNL ["a", "b"])]) :=
  ⟨rfl, rfl, fun _ h => FetchResult.noConfusion h,
   C6_fetch_failure_degrades sampleEnv "basesha" "dir/file.txt"
     ⟨false, false, ["a", "b"], ["c"], []⟩ rfl rfl (fun _ h => FetchResult.noConfusion h)⟩

/-- **C7.** If the patch parses to an empty change-set map, the builder
fails with the `"No file changes found in patch"` error before issuing
any remote call: the call trace is empty. -/
theorem C7_empty_changes_refused (env : BuildEnv) (patch msg bb : String)
    (bci : Option String) (bo : Bool) (h : parse_patch patch = []) :
    create_pr_from_patch env patch msg bb bci bo =
      (Except.error "No file changes found in patch", []) := by
  unfold create_pr_from_patch
  rw [h]
  rfl

/-- Witness for C7 at the empty patch. -/
theorem C7_empty_changes_refused_witness :
    parse_patch "" = [] ∧
    create_pr_from_patch sampleEnv "" "msg" "main" none false =
      (Except.error "No file changes found in patch", []) :=
  ⟨by decide, C7_empty_changes_refused sampleEnv "" "msg" "main" none false (by decide)⟩

theorem processFileChange_no_ref (env : BuildEnv) (base_sha file_path : String)
    (changes : FileChange) :
    (processFileChange env base_sha file_path changes).2.filter isCreateRef = [] := by
  unfold processFileChange
  split_ifs <;> rfl

theorem fileCalls_no_ref (env : BuildEnv) (base_sha : String) :
    ∀ l : List (String × FileChange),
      (((l.map (fun pc => processFileChange env base_sha pc.1 pc.2)).map Prod.snd).flatten).filter
          isCreateRef = [] := by
  intro l
  induction l with
  | nil => rfl
  | cons pc rest ih =>
    simp only [List.map_cons, List.flatten_cons, List.filter_append, ih,
      processFileChange_no_ref, List.append_nil]

/-- **C8, counterexample.** On a concrete run, the branch name is the pure
function `"jules-patch-" ++ strftime(timestamp)` of the second-granularity
timestamp sampled at entry: a second invocation within the same wall-clock
second samples the same timestamp and therefore produces the *same* (not
distinct) branch name, and the trace contains exactly one ref-creation
call with that unmodified name — there is no retry with a clock-advanced
name.  (The collision is only surfaced remotely, when the second
`POST /git/refs` is rejected by the host.) -/
theorem C8_counterexample :
    (match (create_pr_from_patch sampleEnv "+++ b/a.txt\n@@ -1 +1 @@\n+x" "msg" "main"
        none false).1 with
     | Except.ok r => r.branch
     | Except.error _ => "") = "jules-patch-20251012-083000" ∧
    branchNameOf sampleEnv.timestamp = "jules-patch-20251012-083000" ∧
    (create_pr_from_patch sampleEnv "+++ b/a.txt\n@@ -1 +1 @@\n+x" "msg" "main"
        none false).2.filter isCreateRef =
      [RemoteCall.createRef "refs/heads/jules-patch-20251012-083000" "commitsha"] := by
  refine ⟨by rfl, by rfl, by rfl⟩

/-- **C8, amended.** The branch name is `"jules-patch-" ++
strftime("%Y%m%d-%H%M%S")` of the timestamp sampled at entry, so two
invocations within the same wall-clock second produce the identical name;
whenever the patch is non-empty the builder issues exactly one
ref-creation call, with exactly that timestamp-derived name — no retry
and no clock-advanced variant exist.  A same-second collision is
therefore neither avoided nor silently overwritten locally: it surfaces
as a remote rejection of the duplicate ref-creation call. -/
theorem C8_amended (env : BuildEnv) (patch msg bb : String) (bci : Option String)
    (bo : Bool) (h : parse_patch patch ≠ []) :
    (create_pr_from_patch env patch msg bb bci bo).2.filter isCreateRef =
      [RemoteCall.createRef ("refs/heads/" ++ branchNameOf env.timestamp) env.commitSha] := by
  unfold create_pr_from_patch
  rw [if_neg h]
  cases bo with
  | true =>
    simp only [if_true]
    rw [List.filter_append, List.filter_append, fileCalls_no_ref]
    cases bci with
    | none => rfl
    | some sha => rfl
  | false =>
    simp only [Bool.false_eq_true, if_false]
    rw [List.filter_append, List.filter_append, List.filter_append, fileCalls_no_ref]
    cases bci with
    | none => rfl
    | some sha => rfl

/-- Witness for C8 (amended) at a concrete non-empty patch. -/
theorem C8_amended_witness :
    parse_patch "+++ b/b.txt\n@@ -1 +1 @@\n+y" ≠ [] ∧
    (create_pr_from_patch sampleEnv "+++ b/b.txt\n@@ -1 +1 @@\n+y" "m" "main"
        (some "othersha") true).2.filter isCreateRef =
      [RemoteCall.createRef ("refs/heads/" ++ branchNameOf sampleEnv.timestamp)
        sampleEnv.commitSha] :=
  ⟨by decide, C8_amended sampleEnv "+++ b/b.txt\n@@ -1 +1 @@\n+y" "m" "main"
    (some "othersha") true (by decide)⟩

/-- **C2 (code bug).** On the standard deletion patch the parser produces
*no* entry at all — only `+++ b/<path>` lines open a file entry, and a
deletion has `+++ /dev/null` in that position, read while no current file
is open — so no `FileChange` is marked `is_deleted`, no tombstone tree
entry is emitted, and the builder, seeing an empty change set, refuses
the operation before any remote call instead of deleting the file. -/
theorem C2_deletion_lost :
    parse_patch deletionPatch = [] ∧
    create_pr_from_patch sampleEnv deletionPatch "remove gone.txt" "main" none false =
      (Except.error "No file changes found in patch", []) := by
  refine ⟨by decide, by rfl⟩
